import Mathlib

/-!
Verification of the FocusFlow (Dayflow) localization-catalog scripts.

The repository consists of Python scripts that merge hand-authored
English → Chinese translation tables into a JSON string catalog
(`Localizable.xcstrings`).  This file gives a shallow embedding of the
data model (catalog, localization record, string unit), of the merge
loops of `extend_xcstrings.py` / `extend_xcstrings_fixes.py`, of
`create_string_unit` and `generate_key` from `build_xcstrings.py`, of
`generate_key` and the collision loop of `complete_translations.py`,
and of `add_translations` from `Dayflow/complete_translations.py`,
and proves the spec's testable properties about them.

Python string primitives are modelled on the ASCII range: `str.lower`,
`str.isalnum`, the regex classes `[a-zA-Z0-9]` and `\s`, and
`str.strip` / `str.split` are embedded as their ASCII restrictions
(all inputs decided by the claims are ASCII).
-/

namespace Dayflow

/-- Translation state of a string unit: `"translated"` or
`"needs_translation"` in the JSON. -/
inductive TrState where
  | translated
  | needsTranslation
deriving DecidableEq, Repr

/-- A `stringUnit` object: a translation state and the displayed text. -/
structure StringUnit where
  state : TrState
  value : String
deriving DecidableEq, Repr

/-- A catalog entry (one value of the `strings` dictionary): the
extraction state together with the per-locale string units.  The two
locales used by the scripts are `en` and `zh-Hans`; either may be
absent in a malformed catalog, hence `Option`. -/
structure LocalizationRecord where
  extractionState : String
  en : Option StringUnit
  zhHans : Option StringUnit
deriving DecidableEq, Repr

/-- The `strings` dictionary of the catalog, as an association list in
insertion order (Python dicts preserve insertion order; keys are
unique). -/
abbrev Catalog := List (String × LocalizationRecord)

/-- Dictionary lookup: first binding of the key, if any. -/
def findRec (cat : Catalog) (k : String) : Option LocalizationRecord :=
  match cat with
  | [] => none
  | (k', r) :: rest => if k' = k then some r else findRec rest k

/-- Python's `key in d` membership test. -/
def containsKey (cat : Catalog) (k : String) : Bool :=
  cat.any (fun p => p.1 = k)

/-- The record built by the `extend_xcstrings*.py` scripts for a batch
triple `(key, en, zh)`: extraction state `manual`, both locales
`translated`. -/
def mkTranslatedRecord (en zh : String) : LocalizationRecord :=
  { extractionState := "manual"
    en := some { state := .translated, value := en }
    zhHans := some { state := .translated, value := zh } }

/-- One batch entry of an `extend_xcstrings*.py` script:
`(key, en, zh)`. -/
structure Cand where
  key : String
  en : String
  zh : String
deriving DecidableEq, Repr

/-- One iteration of the merge loop of `extend_xcstrings.py`
(lines 84–102): insert the entry only when the key is not yet
present. -/
def mergeStep (cat : Catalog) (t : Cand) : Catalog :=
  if containsKey cat t.key then cat
  else cat ++ [(t.key, mkTranslatedRecord t.en t.zh)]

/-- The whole merge loop of `extend_xcstrings.py` over a batch. -/
def mergeNew (cat : Catalog) (batch : List Cand) : Catalog :=
  batch.foldl mergeStep cat

theorem findRec_isSome_of_containsKey (cat : Catalog) (k : String)
    (h : containsKey cat k = true) : (findRec cat k).isSome := by
  induction cat with
  | nil => simp [containsKey] at h
  | cons p rest ih =>
    simp only [containsKey, List.any_cons, Bool.or_eq_true, decide_eq_true_eq] at h
    by_cases hk : p.1 = k
    · simp [findRec, hk]
    · simp only [findRec, hk, if_false]
      exact ih (by simpa [containsKey, hk] using h)

theorem containsKey_of_findRec_isSome (cat : Catalog) (k : String)
    (h : (findRec cat k).isSome) : containsKey cat k = true := by
  induction cat with
  | nil => simp [findRec] at h
  | cons p rest ih =>
    by_cases hk : p.1 = k
    · simp [containsKey, hk]
    · simp only [findRec, hk, if_false] at h
      simpa [containsKey, hk] using ih h

theorem findRec_append_of_some (cat : Catalog) (l : Catalog) (k : String)
    (r : LocalizationRecord) (h : findRec cat k = some r) :
    findRec (cat ++ l) k = some r := by
  induction cat with
  | nil => simp [findRec] at h
  | cons p rest ih =>
    by_cases hk : p.1 = k
    · simp only [findRec, hk, if_true] at h
      simp [findRec, hk, h]
    · simp only [findRec, hk, if_false] at h
      simpa [findRec, hk] using ih h

/-- Existing bindings survive one merge step. -/
theorem mergeStep_preserves (cat : Catalog) (t : Cand) (k : String)
    (r : LocalizationRecord) (h : findRec cat k = some r) :
    findRec (mergeStep cat t) k = some r := by
  unfold mergeStep
  by_cases hc : containsKey cat t.key
  · simpa [hc]
  · simp only [hc, if_false]
    exact findRec_append_of_some cat _ k r h

/-- Existing bindings survive a whole merge pass. -/
theorem mergeNew_preserves (batch : List Cand) (cat : Catalog) (k : String)
    (r : LocalizationRecord) (h : findRec cat k = some r) :
    findRec (mergeNew cat batch) k = some r := by
  induction batch generalizing cat with
  | nil => simpa [mergeNew]
  | cons t rest ih =>
    simp only [mergeNew, List.foldl_cons]
    exact ih (mergeStep cat t) (mergeStep_preserves cat t k r h)

theorem containsKey_append (c l : Catalog) (k : String) :
    containsKey (c ++ l) k = (containsKey c k || containsKey l k) := by
  simp [containsKey, List.any_append]

theorem containsKey_mergeStep_mono (cat : Catalog) (t : Cand) (k : String)
    (h : containsKey cat k = true) : containsKey (mergeStep cat t) k = true := by
  unfold mergeStep
  by_cases hc : containsKey cat t.key = true
  · simp [hc, h]
  · simp [hc, containsKey_append, h]

theorem containsKey_mergeNew_mono (batch : List Cand) (cat : Catalog) (k : String)
    (h : containsKey cat k = true) : containsKey (mergeNew cat batch) k = true := by
  induction batch generalizing cat with
  | nil => simpa [mergeNew]
  | cons t rest ih =>
    simp only [mergeNew, List.foldl_cons]
    exact ih (mergeStep cat t) (containsKey_mergeStep_mono cat t k h)

/-- After one merge step on `t`, the key of `t` is present. -/
theorem containsKey_mergeStep_self (cat : Catalog) (t : Cand) :
    containsKey (mergeStep cat t) t.key = true := by
  unfold mergeStep
  by_cases hc : containsKey cat t.key = true
  · simp [hc]
  · rw [if_neg hc, containsKey_append]
    simp [containsKey]

/-- After a merge pass, every batch key is present. -/
theorem containsKey_mergeNew_of_mem (batch : List Cand) (cat : Catalog)
    (t : Cand) (ht : t ∈ batch) : containsKey (mergeNew cat batch) t.key = true := by
  induction batch generalizing cat with
  | nil => cases ht
  | cons u rest ih =>
    simp only [mergeNew, List.foldl_cons]
    rcases List.mem_cons.mp ht with h | h
    · rw [h]
      exact containsKey_mergeNew_mono rest (mergeStep cat u) u.key
        (containsKey_mergeStep_self cat u)
    · exact ih (mergeStep cat u) h

/-- A merge pass in which every batch key is already present changes
nothing. -/
theorem mergeNew_of_all_present (batch : List Cand) (cat : Catalog)
    (h : ∀ t ∈ batch, containsKey cat t.key = true) :
    mergeNew cat batch = cat := by
  induction batch with
  | nil => simp [mergeNew]
  | cons t rest ih =>
    have ht : containsKey cat t.key = true := h t (List.mem_cons_self t rest)
    simp only [mergeNew, List.foldl_cons, mergeStep, ht, if_true]
    exact ih (fun u hu => h u (List.mem_cons_of_mem t hu))

theorem mergeNew_cons (cat : Catalog) (t : Cand) (rest : List Cand) :
    mergeNew cat (t :: rest) = mergeNew (mergeStep cat t) rest := rfl

/-- The script `extend_xcstrings.py` prints `Added {len(new_translations)}`: the
reported added count is the batch length, whatever was skipped. -/
def extendReportedAdded (batch : List Cand) : Nat := batch.length

/-- One step of the merge loop of `extend_xcstrings_fixes.py`
(lines 22–33), carrying the counts of `Added:` and
`Skipped (exists):` lines printed so far. -/
def mergeCountStep (st : Catalog × Nat × Nat) (t : Cand) : Catalog × Nat × Nat :=
  if containsKey st.1 t.key then (st.1, st.2.1, st.2.2 + 1)
  else (st.1 ++ [(t.key, mkTranslatedRecord t.en t.zh)], st.2.1 + 1, st.2.2)

/-- The merge loop of `extend_xcstrings_fixes.py`: final catalog, number
of `Added:` lines, number of `Skipped (exists):` lines. -/
def mergeCount (cat : Catalog) (batch : List Cand) : Catalog × Nat × Nat :=
  batch.foldl mergeCountStep (cat, 0, 0)

theorem mergeCount_go (batch : List Cand) (cat : Catalog) (a s : Nat) :
    (batch.foldl mergeCountStep (cat, a, s)).1 = mergeNew cat batch ∧
    (mergeNew cat batch).length + a =
      cat.length + (batch.foldl mergeCountStep (cat, a, s)).2.1 ∧
    (batch.foldl mergeCountStep (cat, a, s)).2.1 +
      (batch.foldl mergeCountStep (cat, a, s)).2.2 = a + s + batch.length := by
  induction batch generalizing cat a s with
  | nil => simp [mergeNew]
  | cons t rest ih =>
    rw [List.foldl_cons, mergeNew_cons]
    by_cases hc : containsKey cat t.key = true
    · have h1 : mergeCountStep (cat, a, s) t = (cat, a, s + 1) := by
        simp [mergeCountStep, hc]
      have h2 : mergeStep cat t = cat := by
        simp [mergeStep, hc]
      rw [h1, h2]
      rcases ih cat a (s + 1) with ⟨i1, i2, i3⟩
      refine ⟨i1, i2, ?_⟩
      simp only [List.length_cons]
      omega
    · have h1 : mergeCountStep (cat, a, s) t =
          (cat ++ [(t.key, mkTranslatedRecord t.en t.zh)], a + 1, s) := by
        simp [mergeCountStep, hc]
      have h2 : mergeStep cat t = cat ++ [(t.key, mkTranslatedRecord t.en t.zh)] := by
        simp [mergeStep, hc]
      rw [h1, h2]
      rcases ih (cat ++ [(t.key, mkTranslatedRecord t.en t.zh)]) (a + 1) s with ⟨i1, i2, i3⟩
      refine ⟨i1, ?_, ?_⟩
      · simp only [List.length_append, List.length_cons, List.length_nil] at i2
        omega
      · simp only [List.length_cons]
        omega

/-- English → Chinese translation-table lookup (`d.get(k)` /
`k in d`). -/
def tableGet (t : List (String × String)) (k : String) : Option String :=
  match t with
  | [] => none
  | (k', v) :: rest => if k' = k then some v else tableGet rest k

/-- One record update of `add_translations` in
`Dayflow/complete_translations.py` (lines 236–245).  A record without a
`zh-Hans` localization fails the guard and is left untouched; when
`zh-Hans` is present, the script reads
`entry["localizations"]["en"]["stringUnit"]["value"]`, which raises
`KeyError` if the record has no `en` unit; a `zh-Hans` unit in state
`needs_translation` whose English text occurs in the lookup is
rewritten to the looked-up value in state `translated`. -/
def updateRecord (lookup : List (String × String)) (r : LocalizationRecord) :
    Except String LocalizationRecord :=
  match r.zhHans with
  | none => .ok r
  | some zu =>
    match r.en with
    | none => .error "KeyError: en"
    | some eu =>
      match tableGet lookup eu.value with
      | some zh =>
        if zu.state = .needsTranslation then
          .ok { r with zhHans := some { state := .translated, value := zh } }
        else .ok r
      | none => .ok r

/-- The record-update loop of `add_translations`
(`Dayflow/complete_translations.py`): iterate over the catalog's
records; an uncaught `KeyError` aborts the pass. -/
def add_translations (lookup : List (String × String)) (cat : Catalog) :
    Except String Catalog :=
  match cat with
  | [] => .ok []
  | (k, r) :: rest =>
    match updateRecord lookup r with
    | .error e => .error e
    | .ok r' =>
      match add_translations lookup rest with
      | .error e => .error e
      | .ok rest' => .ok ((k, r') :: rest')

theorem updateRecord_error_iff (lookup : List (String × String))
    (r : LocalizationRecord) :
    (∃ e, updateRecord lookup r = Except.error e) ↔
      (r.zhHans.isSome = true ∧ r.en = none) := by
  rcases r with ⟨es, en, zh⟩
  cases zh with
  | none => simp [updateRecord]
  | some zu =>
    cases en with
    | none => simp [updateRecord]
    | some eu =>
      simp only [updateRecord]
      cases tableGet lookup eu.value with
      | none => simp
      | some z =>
        by_cases h : zu.state = TrState.needsTranslation <;> simp [h]

theorem add_translations_error_iff (lookup : List (String × String))
    (cat : Catalog) :
    (∃ e, add_translations lookup cat = Except.error e) ↔
      (∃ p ∈ cat, p.2.zhHans.isSome = true ∧ p.2.en = none) := by
  induction cat with
  | nil => simp [add_translations]
  | cons p rest ih =>
    rcases p with ⟨k, r⟩
    simp only [add_translations]
    constructor
    · intro ⟨e, he⟩
      cases hu : updateRecord lookup r with
      | error e' =>
        refine ⟨(k, r), List.mem_cons_self _ _, ?_⟩
        exact (updateRecord_error_iff lookup r).mp ⟨e', hu⟩
      | ok r' =>
        rw [hu] at he
        cases ha : add_translations lookup rest with
        | error e' =>
          rcases ih.mp ⟨e', ha⟩ with ⟨q, hq, hq2⟩
          exact ⟨q, List.mem_cons_of_mem _ hq, hq2⟩
        | ok rest' => rw [ha] at he; cases he
    · intro ⟨q, hq, hq2⟩
      rcases List.mem_cons.mp hq with h | h
      · rcases (updateRecord_error_iff lookup q.2).mpr hq2 with ⟨e, he⟩
        rw [h] at he
        rw [he]
        exact ⟨e, rfl⟩
      · cases hu : updateRecord lookup r with
        | error e' => exact ⟨e', rfl⟩
        | ok r' =>
          rcases ih.mpr ⟨q, h, hq2⟩ with ⟨e, he⟩
          rw [he]
          exact ⟨e, rfl⟩

/-- C1: merging the same batch twice equals merging it once; candidates
whose key is already present cause no mutation and no error, so a
second pass of the same batch leaves the catalog (hence its size)
unchanged. -/
theorem C1_merge_idempotent (cat : Catalog) (batch : List Cand) :
    mergeNew (mergeNew cat batch) batch = mergeNew cat batch :=
  mergeNew_of_all_present batch (mergeNew cat batch)
    (fun t ht => containsKey_mergeNew_of_mem batch cat t ht)

/-- When `add_translations` succeeds, every key bound before the pass
is still bound, to the `updateRecord` image of its old record. -/
theorem add_translations_findRec (lookup : List (String × String))
    (cat : Catalog) :
    ∀ cat' k r, add_translations lookup cat = Except.ok cat' →
      findRec cat k = some r →
      ∃ r', updateRecord lookup r = Except.ok r' ∧ findRec cat' k = some r' := by
  induction cat with
  | nil =>
    intro cat' k r _ hfind
    simp [findRec] at hfind
  | cons p rest ih =>
    intro cat' k r hok hfind
    rcases p with ⟨k0, r0⟩
    simp only [add_translations] at hok
    cases hu : updateRecord lookup r0 with
    | error e =>
      rw [hu] at hok
      cases hok
    | ok r0' =>
      rw [hu] at hok
      cases ha : add_translations lookup rest with
      | error e =>
        rw [ha] at hok
        cases hok
      | ok rest' =>
        rw [ha] at hok
        cases hok
        by_cases hk : k0 = k
        · simp only [findRec, hk, if_true] at hfind
          cases hfind
          exact ⟨r0', hu, by simp [findRec, hk]⟩
        · simp only [findRec, hk, if_false] at hfind
          rcases ih rest' k r ha hfind with ⟨r', hr1, hr2⟩
          exact ⟨r', hr1, by simp [findRec, hk, hr2]⟩

/-- C3, amended: the candidate-merge loop never modifies an existing
entry; the completion pass `add_translations` rewrites exactly those
records whose `zh-Hans` unit is in state `needs_translation` and whose
English value has a lookup entry — that unit becomes `translated` with
the looked-up value — and returns every other record it reaches
byte-for-byte unchanged (any pre-existing key stays bound to the
`updateRecord` image of its old record). -/
theorem C3_merge_nondestructive_amended (cat : Catalog) (batch : List Cand)
    (lookup : List (String × String)) :
    (∀ k r, findRec cat k = some r → findRec (mergeNew cat batch) k = some r) ∧
    (∀ cat' k r, add_translations lookup cat = Except.ok cat' →
      findRec cat k = some r →
      ∃ r', updateRecord lookup r = Except.ok r' ∧ findRec cat' k = some r') ∧
    (∀ r : LocalizationRecord, ∀ zu eu zh,
      r.zhHans = some zu → r.en = some eu → zu.state = TrState.needsTranslation →
      tableGet lookup eu.value = some zh →
      updateRecord lookup r =
        Except.ok { r with zhHans := some { state := .translated, value := zh } }) ∧
    (∀ r : LocalizationRecord, r.zhHans = none →
      updateRecord lookup r = Except.ok r) ∧
    (∀ r : LocalizationRecord, ∀ zu eu,
      r.zhHans = some zu → r.en = some eu → zu.state ≠ TrState.needsTranslation →
      updateRecord lookup r = Except.ok r) ∧
    (∀ r : LocalizationRecord, ∀ zu eu,
      r.zhHans = some zu → r.en = some eu → tableGet lookup eu.value = none →
      updateRecord lookup r = Except.ok r) := by
  refine ⟨fun k r h => mergeNew_preserves batch cat k r h,
    fun cat' k r hok hfind => add_translations_findRec lookup cat cat' k r hok hfind,
    ?_, ?_, ?_, ?_⟩
  · intro r zu eu zh hzu heu hstate hget
    simp [updateRecord, hzu, heu, hget, hstate]
  · intro r hr
    simp [updateRecord, hr]
  · intro r zu eu hzu heu hstate
    cases hget : tableGet lookup eu.value with
    | none => simp [updateRecord, hzu, heu, hget]
    | some zh => simp [updateRecord, hzu, heu, hget, hstate]
  · intro r zu eu hzu heu hget
    simp [updateRecord, hzu, heu, hget]

/-- C3, counterexample to the claim as stated: the claim also covers
the cited `add_translations` pass, which rewrites a pre-existing record
in place — a record whose `zh-Hans` unit is `needs_translation` and
whose English text has a lookup entry comes out with a different state
and value, not byte-for-byte identical. -/
theorem C3_counterexample :
    add_translations [("Start", "开始")]
        [("start",
          { extractionState := "manual",
            en := some { state := .translated, value := "Start" },
            zhHans := some { state := .needsTranslation, value := "Start" } })] =
      Except.ok
        [("start",
          { extractionState := "manual",
            en := some { state := .translated, value := "Start" },
            zhHans := some { state := .translated, value := "开始" } })] ∧
    ({ extractionState := "manual",
       en := some { state := .translated, value := "Start" },
       zhHans := some { state := .needsTranslation, value := "Start" } } :
        LocalizationRecord) ≠
      { extractionState := "manual",
        en := some { state := .translated, value := "Start" },
        zhHans := some { state := .translated, value := "开始" } } :=
  ⟨rfl, by decide⟩

theorem C3_merge_nondestructive_amended_witness :
    (findRec
      (mergeNew [("today", mkTranslatedRecord "Today" "今天")]
        [⟨"today", "Other", "别的"⟩]) "today" =
      some (mkTranslatedRecord "Today" "今天")) ∧
    (updateRecord [("Hi", "嗨")]
        { extractionState := "manual",
          en := some { state := .translated, value := "Hi" },
          zhHans := some { state := .translated, value := "嗨" } } =
      Except.ok
        { extractionState := "manual",
          en := some { state := .translated, value := "Hi" },
          zhHans := some { state := .translated, value := "嗨" } }) ∧
    (updateRecord [("Hi", "嗨")]
        { extractionState := "manual",
          en := some { state := .translated, value := "Hi" },
          zhHans := some { state := .needsTranslation, value := "Hi" } } =
      Except.ok
        { extractionState := "manual",
          en := some { state := .translated, value := "Hi" },
          zhHans := some { state := .translated, value := "嗨" } }) :=
  ⟨(C3_merge_nondestructive_amended [("today", mkTranslatedRecord "Today" "今天")]
      [⟨"today", "Other", "别的"⟩] []).1 "today" _ rfl,
   (C3_merge_nondestructive_amended [] [] [("Hi", "嗨")]).2.2.2.2.1 _
      { state := .translated, value := "嗨" }
      { state := .translated, value := "Hi" } rfl rfl (by decide),
   (C3_merge_nondestructive_amended [] [] [("Hi", "嗨")]).2.2.1 _
      { state := .needsTranslation, value := "Hi" }
      { state := .translated, value := "Hi" } "嗨" rfl rfl rfl rfl⟩

/-! Character classes, modelled on the ASCII range via code points:
`[a-zA-Z0-9]` is 65–90 ∪ 97–122 ∪ 48–57, the whitespace class `\s` is
32 ∪ 9–13, `str.lower` maps 65–90 to 97–122. -/

theorem toNat_ofNat_valid {n : Nat} (h : n.isValidChar) : (Char.ofNat n).toNat = n := by
  simp [Char.ofNat, dif_pos h, Char.ofNatAux, Char.toNat, UInt32.toNat, BitVec.toNat_ofNatLt]

/-- The regex class `[a-zA-Z0-9]`, also the ASCII fragment of Python's
`str.isalnum`. -/
def isAsciiAlnum (c : Char) : Bool :=
  (65 ≤ c.toNat ∧ c.toNat ≤ 90) || (97 ≤ c.toNat ∧ c.toNat ≤ 122) ||
    (48 ≤ c.toNat ∧ c.toNat ≤ 57)

/-- The ASCII fragment of the regex class `\s` / Python's notion of
whitespace: space, tab, newline, vertical tab, form feed, carriage
return. -/
def pyIsSpace (c : Char) : Bool :=
  c.toNat = 32 || (9 ≤ c.toNat ∧ c.toNat ≤ 13)

/-- The ASCII fragment of Python's `str.lower`, character by
character. -/
def pyToLower (c : Char) : Char :=
  if 65 ≤ c.toNat ∧ c.toNat ≤ 90 then Char.ofNat (c.toNat + 32) else c

/-- The character class `[a-z0-9_]` of the spec's key-safety
property. -/
def isKeyChar (c : Char) : Bool :=
  (97 ≤ c.toNat ∧ c.toNat ≤ 122) || (48 ≤ c.toNat ∧ c.toNat ≤ 57) ||
    c.toNat = 95

theorem pyToLower_of_space (c : Char) (h : pyIsSpace c = true) :
    pyToLower c = c := by
  simp only [pyIsSpace, Bool.or_eq_true, decide_eq_true_eq] at h
  unfold pyToLower
  rw [if_neg]
  omega

theorem pyIsSpace_eq_false_of_alnum (c : Char) (h : isAsciiAlnum c = true) :
    pyIsSpace c = false := by
  simp only [isAsciiAlnum, Bool.or_eq_true, decide_eq_true_eq] at h
  simp only [pyIsSpace, Bool.or_eq_false_iff, decide_eq_false_iff_not]
  omega

theorem isKeyChar_pyToLower_of_alnum (c : Char) (h : isAsciiAlnum c = true) :
    isKeyChar (pyToLower c) = true := by
  simp only [isAsciiAlnum, Bool.or_eq_true, decide_eq_true_eq] at h
  unfold pyToLower
  by_cases hr : 65 ≤ c.toNat ∧ c.toNat ≤ 90
  · rw [if_pos hr]
    have hv : (c.toNat + 32).isValidChar := by
      left
      omega
    simp only [isKeyChar, Bool.or_eq_true, decide_eq_true_eq, toNat_ofNat_valid hv]
    omega
  · rw [if_neg hr]
    simp only [isKeyChar, Bool.or_eq_true, decide_eq_true_eq]
    omega

theorem pyIsSpace_pyToLower_of_alnum (c : Char) (h : isAsciiAlnum c = true) :
    pyIsSpace (pyToLower c) = false := by
  simp only [isAsciiAlnum, Bool.or_eq_true, decide_eq_true_eq] at h
  unfold pyToLower
  by_cases hr : 65 ≤ c.toNat ∧ c.toNat ≤ 90
  · rw [if_pos hr]
    have hv : (c.toNat + 32).isValidChar := by
      left
      omega
    simp only [pyIsSpace, Bool.or_eq_false_iff, decide_eq_false_iff_not,
      toNat_ofNat_valid hv]
    omega
  · rw [if_neg hr]
    simp only [pyIsSpace, Bool.or_eq_false_iff, decide_eq_false_iff_not]
    omega

/-- Lowercasing does not change whether a character is whitespace, for
the characters the key pipeline keeps (alphanumerics and
whitespace). -/
theorem pyIsSpace_pyToLower_of_kept (c : Char)
    (h : (isAsciiAlnum c || pyIsSpace c) = true) :
    pyIsSpace (pyToLower c) = pyIsSpace c := by
  rcases Bool.or_eq_true _ _ |>.mp h with h1 | h1
  · rw [pyIsSpace_pyToLower_of_alnum c h1, pyIsSpace_eq_false_of_alnum c h1]
  · rw [pyToLower_of_space c h1]

/-! Decimal rendering of a counter, as in the f-string
`f"{original_key}_{counter}"`. -/

/-- The decimal digit string of a natural number. -/
def natDecimal (n : Nat) : List Char :=
  if h : n < 10 then [Char.ofNat (48 + n)]
  else natDecimal (n / 10) ++ [Char.ofNat (48 + n % 10)]
termination_by n
decreasing_by exact Nat.div_lt_self (by omega) (by omega)

/-- Read a digit string back as a number (verification helper, not part
of the embedding). -/
def parseDecimal (l : List Char) : Nat :=
  l.foldl (fun acc c => acc * 10 + (c.toNat - 48)) 0

theorem parseDecimal_append_digit (l : List Char) (c : Char) :
    parseDecimal (l ++ [c]) = parseDecimal l * 10 + (c.toNat - 48) := by
  simp [parseDecimal, List.foldl_append]

theorem toNat_digit (d : Nat) (h : d < 10) : (Char.ofNat (48 + d)).toNat = 48 + d :=
  toNat_ofNat_valid (by left; omega)

theorem parseDecimal_natDecimal (n : Nat) : parseDecimal (natDecimal n) = n := by
  induction n using Nat.strong_induction_on with
  | _ n ih =>
    by_cases h : n < 10
    · rw [natDecimal, dif_pos h]
      simp [parseDecimal, toNat_digit n h]
    · rw [natDecimal, dif_neg h, parseDecimal_append_digit,
        ih (n / 10) (Nat.div_lt_self (by omega) (by omega)),
        toNat_digit (n % 10) (Nat.mod_lt _ (by omega))]
      omega

theorem natDecimal_injective : Function.Injective natDecimal := by
  intro a b h
  have := congrArg parseDecimal h
  rwa [parseDecimal_natDecimal, parseDecimal_natDecimal] at this

theorem natDecimal_ne_nil (n : Nat) : natDecimal n ≠ [] := by
  by_cases h : n < 10
  · rw [natDecimal, dif_pos h]
    simp
  · rw [natDecimal, dif_neg h]
    simp

/-! String-normalization primitives, parametrized by the character
class `p` (instantiated with `pyIsSpace` for the code's `\s`, and with
the literal space class when transcribing the spec's wording). -/

/-- Drop trailing characters satisfying `p`; with `List.dropWhile` this
is Python's `str.strip`. -/
def trimRight (p : Char → Bool) : List Char → List Char
  | [] => []
  | c :: cs =>
    match trimRight p cs with
    | [] => if p c then [] else [c]
    | l => c :: l

/-- Python's `str.strip`. -/
def pyStrip (p : Char → Bool) (l : List Char) : List Char :=
  trimRight p (l.dropWhile p)

/-- The substitution `re.sub(r'\s+', '_', ·)`: replace each maximal run of characters
satisfying `p` by a single underscore.  The Boolean is true while
inside a run (so the run emits only one underscore). -/
def collapseAux (p : Char → Bool) : Bool → List Char → List Char
  | _, [] => []
  | prev, c :: cs =>
    if p c then
      if prev then collapseAux p true cs
      else '_' :: collapseAux p true cs
    else c :: collapseAux p false cs

/-- The substitution `re.sub(r'\s+', '_', ·)` on a whole string. -/
def collapseRuns (p : Char → Bool) (l : List Char) : List Char :=
  collapseAux p false l

/-- Python's argumentless `str.split`: the maximal runs of characters
not satisfying `p` (no empty words).  The accumulator holds the
current word reversed. -/
def wordsAux (p : Char → Bool) : List Char → List Char → List (List Char)
  | acc, [] => if acc.isEmpty then [] else [acc.reverse]
  | acc, c :: cs =>
    if p c then
      if acc.isEmpty then wordsAux p [] cs
      else acc.reverse :: wordsAux p [] cs
    else wordsAux p (c :: acc) cs

/-- Python's `text.split()`. -/
def pyWords (p : Char → Bool) (l : List Char) : List (List Char) :=
  wordsAux p [] l

/-- Python's `'_'.join`. -/
def joinU : List (List Char) → List Char
  | [] => []
  | [w] => w
  | w :: ws => w ++ '_' :: joinU ws

/-- Python's `key.split('_')` (keeps empty pieces). -/
def splitU : List Char → List (List Char)
  | [] => [[]]
  | c :: cs =>
    if c = '_' then [] :: splitU cs
    else
      match splitU cs with
      | [] => [[c]]
      | w :: ws => (c :: w) :: ws

theorem trimRight_cons_of_nil (p : Char → Bool) (c : Char) (cs : List Char)
    (h : trimRight p cs = []) (hc : p c = true) :
    trimRight p (c :: cs) = [] := by
  simp [trimRight, h, hc]

theorem trimRight_cons_of_nil_neg (p : Char → Bool) (c : Char) (cs : List Char)
    (h : trimRight p cs = []) (hc : p c = false) :
    trimRight p (c :: cs) = [c] := by
  simp [trimRight, h, hc]

theorem trimRight_cons_of_ne (p : Char → Bool) (c : Char) (cs : List Char)
    (h : trimRight p cs ≠ []) :
    trimRight p (c :: cs) = c :: trimRight p cs := by
  cases hx : trimRight p cs with
  | nil => exact absurd hx h
  | cons x xs => simp [trimRight, hx]

theorem trimRight_eq_nil_iff (p : Char → Bool) (l : List Char) :
    trimRight p l = [] ↔ ∀ c ∈ l, p c = true := by
  induction l with
  | nil => simp [trimRight]
  | cons c cs ih =>
    by_cases h : trimRight p cs = []
    · by_cases hc : p c = true
      · rw [trimRight_cons_of_nil p c cs h hc]
        simp only [List.mem_cons, forall_eq_or_imp]
        exact ⟨fun _ => ⟨hc, ih.mp h⟩, fun _ => by trivial⟩
      · rw [trimRight_cons_of_nil_neg p c cs h (Bool.eq_false_iff.mpr hc)]
        simp only [List.mem_cons, forall_eq_or_imp]
        constructor
        · intro hfalse
          cases hfalse
        · intro hall
          exact absurd hall.1 hc
    · rw [trimRight_cons_of_ne p c cs h]
      simp only [List.mem_cons, forall_eq_or_imp]
      constructor
      · intro hfalse
        cases hfalse
      · intro hall
        exact absurd (ih.mpr hall.2) h

theorem wordsAux_ne_nil (p : Char → Bool) (l acc : List Char) (h : acc ≠ []) :
    wordsAux p acc l ≠ [] := by
  induction l generalizing acc with
  | nil =>
    simp only [wordsAux]
    rw [if_neg (by simpa using h)]
    simp
  | cons c cs ih =>
    simp only [wordsAux]
    by_cases hc : p c = true
    · rw [if_pos hc, if_neg (by simpa using h)]
      simp
    · rw [if_neg hc]
      exact ih (c :: acc) (by simp)

theorem pyWords_eq_nil_iff (p : Char → Bool) (l : List Char) :
    pyWords p l = [] ↔ ∀ c ∈ l, p c = true := by
  induction l with
  | nil => simp [pyWords, wordsAux]
  | cons c cs ih =>
    by_cases hc : p c = true
    · simp only [pyWords, wordsAux, hc, if_pos, List.isEmpty_nil, if_true]
      simp only [pyWords] at ih
      rw [ih]
      constructor
      · intro hall d hd
        rcases List.mem_cons.mp hd with rfl | hd2
        · exact hc
        · exact hall d hd2
      · intro hall d hd
        exact hall d (List.mem_cons_of_mem c hd)
    · simp only [pyWords, wordsAux, hc, if_false, List.isEmpty_nil, if_true]
      constructor
      · intro hcontra
        exact absurd hcontra (wordsAux_ne_nil p cs [c] (by simp))
      · intro hall
        exact absurd (hall c (List.mem_cons_self c cs)) hc

theorem wordsAux_nil_ne (p : Char → Bool) (acc : List Char) (h : acc ≠ []) :
    wordsAux p acc [] = [acc.reverse] := by
  simp only [wordsAux]
  rw [if_neg (by simpa using h)]

theorem wordsAux_cons_space_ne (p : Char → Bool) (c : Char) (cs acc : List Char)
    (hc : p c = true) (h : acc ≠ []) :
    wordsAux p acc (c :: cs) = acc.reverse :: wordsAux p [] cs := by
  simp only [wordsAux, hc, if_true]
  rw [if_neg (by simpa using h)]

theorem wordsAux_cons_space_nil (p : Char → Bool) (c : Char) (cs : List Char)
    (hc : p c = true) :
    wordsAux p [] (c :: cs) = wordsAux p [] cs := by
  simp [wordsAux, hc]

theorem wordsAux_cons_nonspace (p : Char → Bool) (c : Char) (cs acc : List Char)
    (hc : p c = false) :
    wordsAux p acc (c :: cs) = wordsAux p (c :: acc) cs := by
  simp [wordsAux, hc]

theorem collapseAux_false_cons_pos (p : Char → Bool) (c : Char) (cs : List Char)
    (hc : p c = true) :
    collapseAux p false (c :: cs) = '_' :: collapseAux p true cs := by
  simp [collapseAux, hc]

theorem collapseAux_true_cons_pos (p : Char → Bool) (c : Char) (cs : List Char)
    (hc : p c = true) :
    collapseAux p true (c :: cs) = collapseAux p true cs := by
  simp [collapseAux, hc]

theorem collapseAux_cons_neg (p : Char → Bool) (c : Char) (cs : List Char)
    (b : Bool) (hc : p c = false) :
    collapseAux p b (c :: cs) = c :: collapseAux p false cs := by
  simp [collapseAux, hc]

theorem joinU_cons_ne (w : List Char) (ws : List (List Char)) (h : ws ≠ []) :
    joinU (w :: ws) = w ++ '_' :: joinU ws := by
  cases ws with
  | nil => exact absurd rfl h
  | cons x xs => rfl

theorem core_strip_collapse (p : Char → Bool) :
    ∀ n (l : List Char), l.length ≤ n →
      (∀ acc : List Char, acc ≠ [] →
        joinU (wordsAux p acc l) =
          acc.reverse ++ collapseAux p false (trimRight p l)) ∧
      collapseAux p true (trimRight p l) = joinU (wordsAux p [] l) := by
  intro n
  induction n with
  | zero =>
    intro l hl
    have hnil : l = [] := List.length_eq_zero.mp (Nat.le_zero.mp hl)
    subst hnil
    constructor
    · intro acc hacc
      rw [wordsAux_nil_ne p acc hacc]
      simp [trimRight, collapseAux, joinU]
    · simp [trimRight, collapseAux, wordsAux, joinU]
  | succ n ih =>
    intro l hl
    cases l with
    | nil =>
      constructor
      · intro acc hacc
        rw [wordsAux_nil_ne p acc hacc]
        simp [trimRight, collapseAux, joinU]
      · simp [trimRight, collapseAux, wordsAux, joinU]
    | cons d ds =>
      have hds : ds.length ≤ n := by
        simpa using hl
      rcases ih ds hds with ⟨ih1, ih2⟩
      by_cases hd : p d = true
      · by_cases htr : trimRight p ds = []
        · have hall : ∀ c ∈ ds, p c = true := (trimRight_eq_nil_iff p ds).mp htr
          have hw : wordsAux p [] ds = [] := (pyWords_eq_nil_iff p ds).mpr hall
          have htr2 : trimRight p (d :: ds) = [] :=
            trimRight_cons_of_nil p d ds htr hd
          constructor
          · intro acc hacc
            rw [wordsAux_cons_space_ne p d ds acc hd hacc, hw, htr2]
            simp [joinU, collapseAux]
          · rw [htr2, wordsAux_cons_space_nil p d ds hd, hw]
            simp [collapseAux, joinU]
        · have htr2 : trimRight p (d :: ds) = d :: trimRight p ds :=
            trimRight_cons_of_ne p d ds htr
          have hwne : wordsAux p [] ds ≠ [] := by
            intro hz
            exact htr ((trimRight_eq_nil_iff p ds).mpr ((pyWords_eq_nil_iff p ds).mp hz))
          constructor
          · intro acc hacc
            rw [wordsAux_cons_space_ne p d ds acc hd hacc, htr2,
              collapseAux_false_cons_pos p d _ hd, joinU_cons_ne _ _ hwne, ← ih2]
          · rw [htr2, collapseAux_true_cons_pos p d _ hd,
              wordsAux_cons_space_nil p d ds hd, ih2]
      · have hd' : p d = false := Bool.eq_false_iff.mpr hd
        have htr2 : trimRight p (d :: ds) = d :: trimRight p ds := by
          by_cases htr : trimRight p ds = []
          · rw [trimRight_cons_of_nil_neg p d ds htr hd', htr]
          · exact trimRight_cons_of_ne p d ds htr
        constructor
        · intro acc hacc
          rw [wordsAux_cons_nonspace p d ds acc hd', htr2,
            collapseAux_cons_neg p d _ false hd',
            ih1 (d :: acc) (by simp)]
          simp
        · rw [htr2, collapseAux_cons_neg p d _ true hd',
            wordsAux_cons_nonspace p d ds [] hd',
            ih1 [d] (by simp)]
          simp

/-- Stripping then collapsing separator runs into underscores is the
same as joining the separator-delimited words with underscores. -/
theorem strip_collapse_eq_words_join (p : Char → Bool) (l : List Char) :
    collapseRuns p (pyStrip p l) = joinU (pyWords p l) := by
  induction l with
  | nil => rfl
  | cons c cs ih =>
    by_cases hc : p c = true
    · have h1 : pyStrip p (c :: cs) = pyStrip p cs := by
        simp [pyStrip, List.dropWhile_cons, hc]
      have h2 : pyWords p (c :: cs) = pyWords p cs := by
        show wordsAux p [] (c :: cs) = wordsAux p [] cs
        exact wordsAux_cons_space_nil p c cs hc
      rw [h1, h2, ih]
    · have hc' : p c = false := Bool.eq_false_iff.mpr hc
      have hdw : (c :: cs).dropWhile p = c :: cs := by
        rw [List.dropWhile_cons, if_neg (by simp [hc'])]
      have h1 : pyStrip p (c :: cs) = c :: trimRight p cs := by
        rw [pyStrip, hdw]
        by_cases htr : trimRight p cs = []
        · rw [trimRight_cons_of_nil_neg p c cs htr hc', htr]
        · exact trimRight_cons_of_ne p c cs htr
      rcases core_strip_collapse p cs.length cs (le_refl _) with ⟨core1, _⟩
      rw [h1]
      show collapseAux p false (c :: trimRight p cs) = joinU (wordsAux p [] (c :: cs))
      rw [collapseAux_cons_neg p c _ false hc',
        wordsAux_cons_nonspace p c cs [] hc', core1 [c] (by simp)]
      simp

/-! The two `generate_key` variants. -/

/-- The normalization pipeline of `generate_key` in
`build_xcstrings.py` (lines 230–234): `re.sub(r'[^a-zA-Z0-9\s]', '', text)`,
then `.strip()`, then `.lower()`, then `re.sub(r'\s+', '_', key)`. -/
def normalizeKey (text : List Char) : List Char :=
  collapseRuns pyIsSpace
    ((pyStrip pyIsSpace (text.filter fun c => isAsciiAlnum c || pyIsSpace c)).map pyToLower)

/-- The length cap of `generate_key` in `build_xcstrings.py`
(lines 236–239): a key longer than 50 characters keeps only its first
five `'_'`-separated words. -/
def capKey (key : List Char) : List Char :=
  if 50 < key.length then joinU ((splitU key).take 5) else key

/-- The function `generate_key` of `build_xcstrings.py` (lines 228–241): normalize,
cap the length, and return `"unnamed"` when the key is empty. -/
def generate_key (text : List Char) : List Char :=
  if (capKey (normalizeKey text)).isEmpty then "unnamed".data
  else capKey (normalizeKey text)

/-- The pre-cap key of `generate_key` in `complete_translations.py`
(lines 284–290): `text.lower()`, `.replace(" ", "_")`, then keep only
characters with `c.isalnum() or c == '_'`. -/
def ctNormalize (text : List Char) : List Char :=
  ((text.map pyToLower).map fun c => if c = ' ' then '_' else c).filter
    fun c => isAsciiAlnum c || c = '_'

/-- The length cap of `generate_key` in `complete_translations.py`
(lines 292–298): if the key exceeds 80 characters and `text.split()`
has more than three words, `'_'.join(words[:3]).lower()` filtered to
alphanumerics and underscores replaces it. -/
def ctCap (text key : List Char) : List Char :=
  if 80 < key.length then
    if 3 < (pyWords pyIsSpace text).length then
      ((joinU ((pyWords pyIsSpace text).take 3)).map pyToLower).filter
        fun c => isAsciiAlnum c || c = '_'
    else key
  else key

/-- The function `generate_key` of `complete_translations.py` (lines 281–299): the
pre-cap key, capped; no sentinel for an empty result. -/
def generate_key_ct (text : List Char) : List Char :=
  ctCap text (ctNormalize text)

/-- Reference normalization transcribing the spec's §4.1 algorithm with
the two corrections claim C5 forces: the kept class is alphanumerics
plus whitespace (not only the space character), and the
whitespace-delimited words are joined with single underscores (which
subsumes collapsing runs and trimming the ends). -/
def referenceNormalize (text : List Char) : List Char :=
  joinU (pyWords pyIsSpace
    ((text.filter fun c => isAsciiAlnum c || pyIsSpace c).map pyToLower))

/-- Literal transcription of the spec's §4.1 wording as claim C5 states
it: strip characters outside `[A-Za-z0-9 ]`, lowercase, collapse each
internal whitespace run into a single underscore, trim leading and
trailing underscores. -/
def specLiteralNormalize (text : List Char) : List Char :=
  let kept := (text.filter fun c => isAsciiAlnum c || c = ' ').map pyToLower
  let collapsed := collapseRuns (fun c => c = ' ') kept
  ((collapsed.dropWhile (fun c => c = '_')).reverse.dropWhile
    (fun c => c = '_')).reverse

theorem dropWhile_map_comm (f : Char → Char) (p : Char → Bool) (l : List Char)
    (h : ∀ c ∈ l, p (f c) = p c) :
    (l.map f).dropWhile p = (l.dropWhile p).map f := by
  induction l with
  | nil => rfl
  | cons c cs ih =>
    simp only [List.map_cons, List.dropWhile_cons]
    rw [h c (List.mem_cons_self c cs)]
    by_cases hc : p c = true
    · rw [if_pos hc, if_pos hc]
      exact ih (fun d hd => h d (List.mem_cons_of_mem c hd))
    · rw [if_neg hc, if_neg hc, List.map_cons]

theorem trimRight_map_comm (f : Char → Char) (p : Char → Bool) (l : List Char)
    (h : ∀ c ∈ l, p (f c) = p c) :
    trimRight p (l.map f) = (trimRight p l).map f := by
  induction l with
  | nil => rfl
  | cons c cs ih =>
    have ihcs := ih (fun d hd => h d (List.mem_cons_of_mem c hd))
    rw [List.map_cons]
    by_cases htr : trimRight p cs = []
    · have htrm : trimRight p (cs.map f) = [] := by
        rw [ihcs, htr, List.map_nil]
      by_cases hc : p c = true
      · rw [trimRight_cons_of_nil p c cs htr hc,
          trimRight_cons_of_nil p (f c) (cs.map f) htrm
            (by rw [h c (List.mem_cons_self c cs)]; exact hc)]
        rfl
      · have hc' : p c = false := Bool.eq_false_iff.mpr hc
        rw [trimRight_cons_of_nil_neg p c cs htr hc',
          trimRight_cons_of_nil_neg p (f c) (cs.map f) htrm
            (by rw [h c (List.mem_cons_self c cs)]; exact hc')]
        rfl
    · have htrm : trimRight p (cs.map f) ≠ [] := by
        rw [ihcs]
        simpa using htr
      rw [trimRight_cons_of_ne p (f c) (cs.map f) htrm,
        trimRight_cons_of_ne p c cs htr, List.map_cons, ihcs]

theorem pyStrip_map_comm (f : Char → Char) (p : Char → Bool) (l : List Char)
    (h : ∀ c ∈ l, p (f c) = p c) :
    pyStrip p (l.map f) = (pyStrip p l).map f := by
  unfold pyStrip
  rw [dropWhile_map_comm f p l h]
  exact trimRight_map_comm f p (l.dropWhile p)
    (fun d hd => h d ((List.dropWhile_sublist p).subset hd))

/-- The code's normalization equals the (amended) spec reference:
the merge of claim C5. -/
theorem normalizeKey_eq_reference (text : List Char) :
    normalizeKey text = referenceNormalize text := by
  unfold normalizeKey referenceNormalize
  have hmem : ∀ c ∈ (text.filter fun c => isAsciiAlnum c || pyIsSpace c),
      pyIsSpace (pyToLower c) = pyIsSpace c := by
    intro c hc
    exact pyIsSpace_pyToLower_of_kept c (List.mem_filter.mp hc).2
  rw [← pyStrip_map_comm pyToLower pyIsSpace _ hmem]
  exact strip_collapse_eq_words_join pyIsSpace _

theorem trimRight_sublist (p : Char → Bool) (l : List Char) :
    List.Sublist (trimRight p l) l := by
  induction l with
  | nil => simp [trimRight]
  | cons c cs ih =>
    by_cases htr : trimRight p cs = []
    · by_cases hc : p c = true
      · rw [trimRight_cons_of_nil p c cs htr hc]
        exact List.nil_sublist _
      · rw [trimRight_cons_of_nil_neg p c cs htr (Bool.eq_false_iff.mpr hc)]
        exact (List.nil_sublist cs).cons₂ c
    · rw [trimRight_cons_of_ne p c cs htr]
      exact ih.cons₂ c

theorem pyStrip_mem (p : Char → Bool) (l : List Char) (c : Char)
    (h : c ∈ pyStrip p l) : c ∈ l :=
  (List.dropWhile_sublist p).subset ((trimRight_sublist p _).subset h)

theorem collapseAux_mem_keyChar (l : List Char) :
    ∀ b, (∀ c ∈ l, isKeyChar c = true ∨ pyIsSpace c = true) →
      ∀ d ∈ collapseAux pyIsSpace b l, isKeyChar d = true := by
  induction l with
  | nil =>
    intro b _ d hd
    simp [collapseAux] at hd
  | cons c cs ih =>
    intro b h d hd
    have hcs : ∀ c ∈ cs, isKeyChar c = true ∨ pyIsSpace c = true :=
      fun e he => h e (List.mem_cons_of_mem c he)
    by_cases hc : pyIsSpace c = true
    · cases b with
      | false =>
        rw [collapseAux_false_cons_pos _ c cs hc] at hd
        rcases List.mem_cons.mp hd with rfl | hd2
        · decide
        · exact ih true hcs d hd2
      | true =>
        rw [collapseAux_true_cons_pos _ c cs hc] at hd
        exact ih true hcs d hd
    · rw [collapseAux_cons_neg _ c cs b (Bool.eq_false_iff.mpr hc)] at hd
      rcases List.mem_cons.mp hd with rfl | hd2
      · rcases h d (List.mem_cons_self d cs) with hk | hs
        · exact hk
        · exact absurd hs hc
      · exact ih false hcs d hd2

theorem splitU_ne_nil (l : List Char) : splitU l ≠ [] := by
  cases l with
  | nil => simp [splitU]
  | cons c cs =>
    by_cases hc : c = '_'
    · simp [splitU, hc]
    · cases h : splitU cs with
      | nil => simp [splitU, hc, h]
      | cons w ws => simp [splitU, hc, h]

theorem splitU_subset (l : List Char) :
    ∀ w ∈ splitU l, ∀ c ∈ w, c ∈ l := by
  induction l with
  | nil =>
    intro w hw c hc
    simp only [splitU, List.mem_singleton] at hw
    subst hw
    cases hc
  | cons d ds ih =>
    intro w hw c hc
    by_cases hd : d = '_'
    · rw [show splitU (d :: ds) = [] :: splitU ds by simp [splitU, hd]] at hw
      rcases List.mem_cons.mp hw with rfl | hw2
      · cases hc
      · exact List.mem_cons_of_mem d (ih w hw2 c hc)
    · cases h : splitU ds with
      | nil => exact absurd h (splitU_ne_nil ds)
      | cons w0 ws0 =>
        rw [show splitU (d :: ds) = (d :: w0) :: ws0 by simp [splitU, hd, h]] at hw
        have hw0 : w0 ∈ splitU ds := by
          rw [h]
          exact List.mem_cons_self w0 ws0
        rcases List.mem_cons.mp hw with rfl | hw2
        · rcases List.mem_cons.mp hc with rfl | hc2
          · exact List.mem_cons_self c ds
          · exact List.mem_cons_of_mem d (ih w0 hw0 c hc2)
        · have hwmem : w ∈ splitU ds := by
            rw [h]
            exact List.mem_cons_of_mem w0 hw2
          exact List.mem_cons_of_mem d (ih w hwmem c hc)

theorem joinU_mem (ws : List (List Char)) (Q : Char → Bool) (hQ : Q '_' = true)
    (h : ∀ w ∈ ws, ∀ c ∈ w, Q c = true) :
    ∀ c ∈ joinU ws, Q c = true := by
  induction ws with
  | nil =>
    intro c hc
    simp [joinU] at hc
  | cons w ws ih =>
    intro c hc
    cases ws with
    | nil =>
      exact h w (List.mem_cons_self w []) c (by simpa [joinU] using hc)
    | cons x xs =>
      rw [joinU_cons_ne w (x :: xs) (by simp)] at hc
      rcases List.mem_append.mp hc with h1 | h2
      · exact h w (List.mem_cons_self w _) c h1
      · rcases List.mem_cons.mp h2 with rfl | h3
        · exact hQ
        · exact ih (fun w' hw' => h w' (List.mem_cons_of_mem _ hw')) c h3

theorem wordsAux_chars_mem (p : Char → Bool) (l : List Char) :
    ∀ acc w, w ∈ wordsAux p acc l → ∀ c ∈ w, c ∈ acc ∨ c ∈ l := by
  induction l with
  | nil =>
    intro acc w hw c hc
    by_cases hacc : acc = []
    · subst hacc
      simp [wordsAux] at hw
    · rw [wordsAux_nil_ne p acc hacc] at hw
      rcases List.mem_singleton.mp hw with rfl
      exact Or.inl (List.mem_reverse.mp hc)
  | cons d ds ih =>
    intro acc w hw c hc
    by_cases hd : p d = true
    · by_cases hacc : acc = []
      · subst hacc
        rw [wordsAux_cons_space_nil p d ds hd] at hw
        rcases ih [] w hw c hc with h1 | h1
        · cases h1
        · exact Or.inr (List.mem_cons_of_mem d h1)
      · rw [wordsAux_cons_space_ne p d ds acc hd hacc] at hw
        rcases List.mem_cons.mp hw with rfl | hw2
        · exact Or.inl (List.mem_reverse.mp hc)
        · rcases ih [] w hw2 c hc with h1 | h1
          · cases h1
          · exact Or.inr (List.mem_cons_of_mem d h1)
    · rw [wordsAux_cons_nonspace p d ds acc (Bool.eq_false_iff.mpr hd)] at hw
      rcases ih (d :: acc) w hw c hc with h1 | h1
      · rcases List.mem_cons.mp h1 with rfl | h2
        · exact Or.inr (List.mem_cons_self c ds)
        · exact Or.inl h2
      · exact Or.inr (List.mem_cons_of_mem d h1)

theorem splitU_free (w : List Char) (h : '_' ∉ w) : splitU w = [w] := by
  induction w with
  | nil => rfl
  | cons c cs ih =>
    have hc : ¬ c = '_' := fun e => h (e ▸ List.mem_cons_self c cs)
    have ihcs : splitU cs = [cs] := ih (fun hm => h (List.mem_cons_of_mem c hm))
    simp [splitU, hc, ihcs]

theorem splitU_append (w l : List Char) (h : '_' ∉ w) :
    splitU (w ++ '_' :: l) = w :: splitU l := by
  induction w with
  | nil => simp [splitU]
  | cons c cs ih =>
    have hc : ¬ c = '_' := fun e => h (e ▸ List.mem_cons_self c cs)
    have ihcs : splitU (cs ++ '_' :: l) = cs :: splitU l :=
      ih (fun hm => h (List.mem_cons_of_mem c hm))
    rw [List.cons_append]
    simp [splitU, hc, ihcs]

theorem splitU_joinU (ws : List (List Char)) (hfree : ∀ w ∈ ws, '_' ∉ w)
    (hne : ws ≠ []) : splitU (joinU ws) = ws := by
  induction ws with
  | nil => exact absurd rfl hne
  | cons w ws ih =>
    cases ws with
    | nil =>
      show splitU (joinU [w]) = [w]
      exact splitU_free w (hfree w (List.mem_cons_self w []))
    | cons x xs =>
      rw [joinU_cons_ne w (x :: xs) (by simp),
        splitU_append w _ (hfree w (List.mem_cons_self w _)),
        ih (fun w' hw' => hfree w' (List.mem_cons_of_mem _ hw')) (by simp)]

theorem isAsciiAlnum_pyToLower_of_alnum (c : Char) (h : isAsciiAlnum c = true) :
    isAsciiAlnum (pyToLower c) = true := by
  simp only [isAsciiAlnum, Bool.or_eq_true, decide_eq_true_eq] at h
  unfold pyToLower
  by_cases hr : 65 ≤ c.toNat ∧ c.toNat ≤ 90
  · rw [if_pos hr]
    have hv : (c.toNat + 32).isValidChar := by
      left
      omega
    simp only [isAsciiAlnum, Bool.or_eq_true, decide_eq_true_eq, toNat_ofNat_valid hv]
    omega
  · rw [if_neg hr]
    simp only [isAsciiAlnum, Bool.or_eq_true, decide_eq_true_eq]
    omega

theorem wordsAux_words_ne_nil (p : Char → Bool) (l : List Char) :
    ∀ acc w, w ∈ wordsAux p acc l → w ≠ [] := by
  induction l with
  | nil =>
    intro acc w hw
    by_cases hacc : acc = []
    · subst hacc
      simp [wordsAux] at hw
    · rw [wordsAux_nil_ne p acc hacc] at hw
      rcases List.mem_singleton.mp hw with rfl
      simpa using hacc
  | cons c cs ih =>
    intro acc w hw
    by_cases hc : p c = true
    · by_cases hacc : acc = []
      · subst hacc
        rw [wordsAux_cons_space_nil p c cs hc] at hw
        exact ih [] w hw
      · rw [wordsAux_cons_space_ne p c cs acc hc hacc] at hw
        rcases List.mem_cons.mp hw with rfl | hw2
        · simpa using hacc
        · exact ih [] w hw2
    · rw [wordsAux_cons_nonspace p c cs acc (Bool.eq_false_iff.mpr hc)] at hw
      exact ih (c :: acc) w hw

theorem joinU_ne_nil (ws : List (List Char)) (h1 : ws ≠ [])
    (h2 : ∀ w ∈ ws, w ≠ []) : joinU ws ≠ [] := by
  cases ws with
  | nil => exact absurd rfl h1
  | cons w x =>
    cases x with
    | nil => exact h2 w (List.mem_cons_self w [])
    | cons y ys =>
      rw [joinU_cons_ne w (y :: ys) (by simp)]
      simp

/-- Every character of the normalized key is in `[a-z0-9_]`. -/
theorem normalizeKey_chars (text : List Char) :
    ∀ c ∈ normalizeKey text, isKeyChar c = true := by
  intro d hd
  unfold normalizeKey collapseRuns at hd
  refine collapseAux_mem_keyChar _ false ?_ d hd
  intro c hc
  rcases List.mem_map.mp hc with ⟨e, he, rfl⟩
  have he2 := pyStrip_mem _ _ e he
  have hcl := (List.mem_filter.mp he2).2
  rcases (Bool.or_eq_true _ _).mp hcl with ha | hs
  · exact Or.inl (isKeyChar_pyToLower_of_alnum e ha)
  · right
    rw [pyToLower_of_space e hs]
    exact hs

theorem capKey_chars (key : List Char) (h : ∀ c ∈ key, isKeyChar c = true) :
    ∀ c ∈ capKey key, isKeyChar c = true := by
  intro c hc
  unfold capKey at hc
  by_cases h50 : 50 < key.length
  · rw [if_pos h50] at hc
    refine joinU_mem _ isKeyChar (by decide) ?_ c hc
    intro w hw d hd
    exact h d (splitU_subset key w (List.take_subset _ _ hw) d hd)
  · rw [if_neg h50] at hc
    exact h c hc

/-- On input with no ASCII alphanumeric character, the normalized key
is empty. -/
theorem normalizeKey_of_no_alnum (text : List Char)
    (h : ∀ c ∈ text, isAsciiAlnum c = false) : normalizeKey text = [] := by
  have hflt : ∀ c ∈ (text.filter fun c => isAsciiAlnum c || pyIsSpace c),
      pyIsSpace c = true := by
    intro c hc
    rcases List.mem_filter.mp hc with ⟨hmem, hcl⟩
    rcases (Bool.or_eq_true _ _).mp hcl with ha | hs
    · rw [h c hmem] at ha
      cases ha
    · exact hs
  have hdw : (text.filter fun c => isAsciiAlnum c || pyIsSpace c).dropWhile
      pyIsSpace = [] :=
    List.dropWhile_eq_nil_iff.mpr hflt
  unfold normalizeKey collapseRuns pyStrip
  rw [hdw]
  rfl

/-- C2, amended part: the `build_xcstrings.py` key generator is safe:
for every input the key is non-empty and drawn from `[a-z0-9_]`, and an
input with no ASCII alphanumeric characters yields the sentinel
`"unnamed"`.  (The `complete_translations.py` variant has no sentinel
and can return an empty key: see the counterexample.) -/
theorem C2_key_safety_amended (text : List Char) :
    generate_key text ≠ [] ∧
    (∀ c ∈ generate_key text, isKeyChar c = true) ∧
    ((∀ c ∈ text, isAsciiAlnum c = false) → generate_key text = "unnamed".data) := by
  refine ⟨?_, ?_, ?_⟩
  · unfold generate_key
    by_cases he : (capKey (normalizeKey text)).isEmpty = true
    · rw [if_pos he]
      decide
    · rw [if_neg he]
      intro hnil
      exact he (by simp [hnil])
  · intro c hc
    unfold generate_key at hc
    by_cases he : (capKey (normalizeKey text)).isEmpty = true
    · rw [if_pos he] at hc
      revert hc
      revert c
      decide
    · rw [if_neg he] at hc
      exact capKey_chars _ (normalizeKey_chars text) c hc
  · intro h
    unfold generate_key capKey
    rw [normalizeKey_of_no_alnum text h]
    decide

/-- C2, counterexample to the claim as stated: the
`complete_translations.py` key generator returns the empty string (not
a non-empty key, not the sentinel) on an input with no ASCII
alphanumeric characters. -/
theorem C2_counterexample :
    generate_key_ct "!!!".data = [] ∧
    generate_key_ct "!!!".data ≠ "unnamed".data := by
  decide

theorem C2_key_safety_amended_witness :
    generate_key "!!! ***".data = "unnamed".data :=
  (C2_key_safety_amended "!!! ***".data).2.2 (by decide)

/-- Reference normalization for the `complete_translations.py`
generator, transcribing its amended description: lowercase; replace
each space character one-for-one by an underscore (no collapsing of
runs, no trimming); drop every other character outside
`[a-z0-9_]`. -/
def ctReferenceNormalize (text : List Char) : List Char :=
  (text.map fun c => if c = ' ' then '_' else pyToLower c).filter
    fun c => isAsciiAlnum c || c = '_'

theorem pyToLower_ne_space (c : Char) (h : ¬ c = ' ') : ¬ pyToLower c = ' ' := by
  unfold pyToLower
  by_cases hr : 65 ≤ c.toNat ∧ c.toNat ≤ 90
  · rw [if_pos hr]
    intro he
    have hn := congrArg Char.toNat he
    rw [toNat_ofNat_valid (by left; omega)] at hn
    have h32 : (' ' : Char).toNat = 32 := rfl
    rw [h32] at hn
    omega
  · rw [if_neg hr]
    exact h

/-- The two-pass `lower`-then-`replace` of the code equals the
single-pass per-character pipeline of the reference. -/
theorem ctNormalize_eq_ctReference (text : List Char) :
    ctNormalize text = ctReferenceNormalize text := by
  unfold ctNormalize ctReferenceNormalize
  rw [List.map_map]
  have hfun : ((fun c => if c = ' ' then '_' else c) ∘ pyToLower) =
      (fun c => if c = ' ' then '_' else pyToLower c) := by
    funext c
    by_cases hc : c = ' '
    · subst hc
      decide
    · simp only [Function.comp_apply]
      rw [if_neg (pyToLower_ne_space c hc), if_neg hc]
  rw [hfun]

/-- C5, amended: below its 50-character ceiling the `build_xcstrings.py`
generator equals the whitespace-class reference (keep alphanumerics and
whitespace, lowercase, join the whitespace-delimited words with single
underscores, `"unnamed"` sentinel when empty); below its 80-character
ceiling the `complete_translations.py` generator instead equals a
per-character pipeline — lowercase, replace each space one-for-one by
an underscore, drop other characters outside `[a-z0-9_]` — which
neither collapses whitespace runs nor trims leading or trailing
underscores. -/
theorem C5_algorithm_amended (text : List Char) :
    ((normalizeKey text).length ≤ 50 →
      generate_key text =
        (if (referenceNormalize text).isEmpty then "unnamed".data
         else referenceNormalize text)) ∧
    ((ctNormalize text).length ≤ 80 →
      generate_key_ct text = ctReferenceNormalize text) := by
  constructor
  · intro h
    unfold generate_key capKey
    rw [normalizeKey_eq_reference] at h ⊢
    have hle : ¬ 50 < (referenceNormalize text).length := by omega
    rw [if_neg hle]
  · intro h
    unfold generate_key_ct ctCap
    rw [if_neg (by omega)]
    exact ctNormalize_eq_ctReference text

/-- C5, counterexample to the claim as stated: against the spec's
literal algorithm, the build variant keeps a tab (its class is `\s`,
not only the space) and maps it to an underscore (`"a\tb"` gives
`a_b`, not `ab`), and the `complete_translations.py` variant neither
collapses space runs (`"a  b"` gives `a__b`, not `a_b`) nor trims the
underscore that a leading space becomes (`" a"` gives `_a`, not
`a`). -/
theorem C5_counterexample :
    ((normalizeKey "a\tb".data).length ≤ 50 ∧
      generate_key "a\tb".data = "a_b".data ∧
      specLiteralNormalize "a\tb".data = "ab".data) ∧
    ((ctNormalize "a  b".data).length ≤ 80 ∧
      generate_key_ct "a  b".data = "a__b".data ∧
      specLiteralNormalize "a  b".data = "a_b".data) ∧
    ((ctNormalize " a".data).length ≤ 80 ∧
      generate_key_ct " a".data = "_a".data ∧
      specLiteralNormalize " a".data = "a".data) := by
  decide

theorem C5_algorithm_amended_witness :
    generate_key "  Hi   there ".data =
      (if (referenceNormalize "  Hi   there ".data).isEmpty then "unnamed".data
       else referenceNormalize "  Hi   there ".data) ∧
    generate_key_ct " You can switch".data =
      ctReferenceNormalize " You can switch".data :=
  ⟨(C5_algorithm_amended _).1 (by decide),
   (C5_algorithm_amended _).2 (by decide)⟩

theorem mapped_filter_no_underscore (text : List Char) :
    '_' ∉ (text.filter fun c => isAsciiAlnum c || pyIsSpace c).map pyToLower := by
  intro hmem
  rcases List.mem_map.mp hmem with ⟨e, he, heq⟩
  have hcl := (List.mem_filter.mp he).2
  rcases (Bool.or_eq_true _ _).mp hcl with ha | hs
  · have halnum := isAsciiAlnum_pyToLower_of_alnum e ha
    rw [heq] at halnum
    exact absurd halnum (by decide)
  · rw [pyToLower_of_space e hs] at heq
    subst heq
    exact absurd hs (by decide)

/-- Splitting the normalized key on underscores recovers exactly the
whitespace-delimited words of the cleaned text. -/
theorem splitU_normalizeKey (text : List Char) (hne : normalizeKey text ≠ []) :
    splitU (normalizeKey text) =
      pyWords pyIsSpace
        ((text.filter fun c => isAsciiAlnum c || pyIsSpace c).map pyToLower) := by
  rw [normalizeKey_eq_reference]
  unfold referenceNormalize
  apply splitU_joinU
  · intro w hw hmem
    rcases wordsAux_chars_mem pyIsSpace _ [] w hw '_' hmem with h1 | h1
    · cases h1
    · exact mapped_filter_no_underscore text h1
  · intro hnil
    rw [normalizeKey_eq_reference] at hne
    unfold referenceNormalize at hne
    rw [hnil] at hne
    exact hne rfl

/-- C6, amended: the 50-character variant truncates any over-long key
to its first five whitespace-delimited words and leaves short keys
unshortened; the 80-character variant truncates only when the text has
more than three whitespace-delimited words (an over-long key of at most
three words is returned unshortened, above the ceiling). -/
theorem C6_truncation_amended (text : List Char) :
    ((normalizeKey text).length ≤ 50 →
      generate_key text =
        (if (normalizeKey text).isEmpty then "unnamed".data
         else normalizeKey text)) ∧
    (50 < (normalizeKey text).length →
      generate_key text = joinU ((pyWords pyIsSpace
        ((text.filter fun c => isAsciiAlnum c || pyIsSpace c).map
          pyToLower)).take 5)) ∧
    ((ctNormalize text).length ≤ 80 → generate_key_ct text = ctNormalize text) ∧
    (80 < (ctNormalize text).length → (pyWords pyIsSpace text).length ≤ 3 →
      generate_key_ct text = ctNormalize text) ∧
    (80 < (ctNormalize text).length → 3 < (pyWords pyIsSpace text).length →
      generate_key_ct text =
        ((joinU ((pyWords pyIsSpace text).take 3)).map pyToLower).filter
          (fun c => isAsciiAlnum c || c = '_')) := by
  refine ⟨?_, ?_, ?_, ?_, ?_⟩
  · intro h
    unfold generate_key capKey
    have hle : ¬ 50 < (normalizeKey text).length := by omega
    rw [if_neg hle]
  · intro h50
    have hne : normalizeKey text ≠ [] := by
      intro hz
      rw [hz] at h50
      simp at h50
    have hsplit := splitU_normalizeKey text hne
    have hwordsne : pyWords pyIsSpace
        ((text.filter fun c => isAsciiAlnum c || pyIsSpace c).map pyToLower) ≠ [] := by
      intro hz
      apply hne
      rw [normalizeKey_eq_reference]
      unfold referenceNormalize
      rw [hz]
      rfl
    have htake_ne : (pyWords pyIsSpace
        ((text.filter fun c => isAsciiAlnum c || pyIsSpace c).map
          pyToLower)).take 5 ≠ [] := by
      cases hw : pyWords pyIsSpace
          ((text.filter fun c => isAsciiAlnum c || pyIsSpace c).map pyToLower) with
      | nil => exact absurd hw hwordsne
      | cons w ws => simp
    have hjoin_ne : joinU ((pyWords pyIsSpace
        ((text.filter fun c => isAsciiAlnum c || pyIsSpace c).map
          pyToLower)).take 5) ≠ [] :=
      joinU_ne_nil _ htake_ne
        (fun w hw => wordsAux_words_ne_nil pyIsSpace _ [] w (List.take_subset _ _ hw))
    unfold generate_key capKey
    rw [if_pos h50, hsplit]
    rw [if_neg (fun hc => hjoin_ne (by simpa using hc))]
  · intro h
    unfold generate_key_ct ctCap
    rw [if_neg (by omega)]
  · intro h80 h3
    unfold generate_key_ct ctCap
    rw [if_pos h80, if_neg (by omega)]
  · intro h80 h3
    unfold generate_key_ct ctCap
    rw [if_pos h80, if_pos h3]

/-- 40 copies of `a`, two spaces, 50 copies of `b`: the pre-cap key is
92 characters with a double underscore. -/
def c6Text : List Char := List.replicate 40 'a' ++ [' ', ' '] ++ List.replicate 50 'b'

/-- C6, counterexample to the claim as stated: in the 80-character
variant, a normalized key above the ceiling whose text has at most
three whitespace-delimited words is returned unshortened (92
characters, with a double underscore), not truncated to its first
three words. -/
theorem C6_counterexample :
    80 < (ctNormalize c6Text).length ∧
    generate_key_ct c6Text = ctNormalize c6Text ∧
    generate_key_ct c6Text ≠ joinU ((pyWords pyIsSpace c6Text).take 3) ∧
    80 < (generate_key_ct c6Text).length := by
  decide

theorem C6_truncation_amended_witness :
    generate_key "one two three four five six seven eight nine ten eleven".data =
      joinU ((pyWords pyIsSpace
        (("one two three four five six seven eight nine ten eleven".data.filter
          fun c => isAsciiAlnum c || pyIsSpace c).map pyToLower)).take 5) ∧
    generate_key_ct "a b".data = ctNormalize "a b".data :=
  ⟨(C6_truncation_amended _).2.1 (by decide),
   (C6_truncation_amended _).2.2.1 (by decide)⟩

/-! Record creation (`build_xcstrings.create_string_unit`) and the two
whole-script merge loops that generate keys. -/

/-- Python truthiness of an optional string (`if zh_value:`): false for
`None` and for the empty string. -/
def pyTruthy : Option String → Bool
  | none => false
  | some s => !(s = "")

/-- The `localizations` object of a well-formed new record: one unit
per locale. -/
structure Localizations where
  en : StringUnit
  zhHans : StringUnit
deriving DecidableEq, Repr

/-- The function `create_string_unit` of `build_xcstrings.py` (lines 199–226): the
English unit is `translated`; the Chinese unit is `translated` with the
given value when the supplied translation is truthy (present and
non-empty), otherwise `needs_translation` with the English text as
placeholder. -/
def create_string_unit (en_value : String) (zh_value : Option String) :
    Localizations :=
  if pyTruthy zh_value then
    { en := { state := .translated, value := en_value }
      zhHans := { state := .translated, value := zh_value.getD "" } }
  else
    { en := { state := .translated, value := en_value }
      zhHans := { state := .needsTranslation, value := en_value } }

/-- A `build_xcstrings` record: `extractionState` `manual` with the
`create_string_unit` localizations. -/
def recordOfLoc (loc : Localizations) : LocalizationRecord :=
  { extractionState := "manual", en := some loc.en, zhHans := some loc.zhHans }

/-- Python dict assignment `d[key] = value`: replace in place when the
key exists, else append. -/
def dictInsert (cat : Catalog) (k : String) (r : LocalizationRecord) : Catalog :=
  if containsKey cat k then
    cat.map (fun p => if p.1 = k then (k, r) else p)
  else cat ++ [(k, r)]

/-- The merge loop of `build_xcstrings` (lines 283–298): skip texts
whose English already appears in the seeded `existing` table, generate
a key, and assign `xcstrings["strings"][key] = ...` unconditionally —
a later text with the same generated key overwrites the earlier
entry. -/
def buildMerge (existingEns : List String) (lookup : List (String × String))
    (cat : Catalog) (texts : List String) : Catalog :=
  texts.foldl (fun c text =>
    if existingEns.contains text then c
    else dictInsert c (String.mk (generate_key text.data))
      (recordOfLoc (create_string_unit text (tableGet lookup text)))) cat

/-- The function `create_string_entry` of `complete_translations.py`
(lines 261–279): both locales `translated` (the `key` argument is not
stored in the value). -/
def create_string_entry (key en_value zh_value : String) : LocalizationRecord :=
  { extractionState := "manual"
    en := some { state := .translated, value := en_value }
    zhHans := some { state := .translated, value := zh_value } }

/-- The candidate keys the collision loop of `complete_translations.py`
`main` (lines 310–316) tries, in order: the base key, then `base_1`,
`base_2`, …  The list is one longer than the catalog, so one candidate
must be fresh. -/
def keyCandidates (cat : Catalog) (base : String) : List String :=
  base :: (List.range (cat.length + 1)).map
    (fun i => base ++ "_" ++ String.mk (natDecimal (i + 1)))

/-- The `while key in xcstrings["strings"]` collision loop: the first
candidate key not yet in the catalog. -/
def freshKey (cat : Catalog) (base : String) : String :=
  ((keyCandidates cat base).find? (fun k => !containsKey cat k)).getD base

/-- The merge loop of `complete_translations.py` `main`
(lines 307–317): key-generate each English text, resolve collisions by
numeric suffix, insert. -/
def ctMerge (cat : Catalog) (batch : List (String × String)) : Catalog :=
  batch.foldl (fun c pair =>
    c ++ [(freshKey c (String.mk (generate_key_ct pair.1.data)),
      create_string_entry (freshKey c (String.mk (generate_key_ct pair.1.data)))
        pair.1 pair.2)]) cat

theorem containsKey_iff_mem_keys (cat : Catalog) (k : String) :
    containsKey cat k = true ↔ k ∈ cat.map Prod.fst := by
  simp [containsKey, List.any_eq_true, List.mem_map]

theorem keyCandidates_length (cat : Catalog) (base : String) :
    (keyCandidates cat base).length = cat.length + 2 := by
  simp [keyCandidates]

theorem keyCandidates_nodup (cat : Catalog) (base : String) :
    (keyCandidates cat base).Nodup := by
  unfold keyCandidates
  refine List.Nodup.cons ?_ ?_
  · intro hmem
    rcases List.mem_map.mp hmem with ⟨i, _, heq⟩
    have hlen := congrArg (fun s : String => s.data.length) heq
    simp only [String.data_append] at hlen
    have hnd : (natDecimal (i + 1)).length ≠ 0 := by
      simpa [List.length_eq_zero] using natDecimal_ne_nil (i + 1)
    simp only [List.length_append] at hlen
    have h1 : ("_" : String).data.length = 1 := rfl
    omega
  · refine List.Nodup.map ?_ (List.nodup_range _)
    intro i j hij
    have hd := congrArg String.data hij
    simp only [String.data_append, List.append_assoc] at hd
    have hcancel := List.append_cancel_left hd
    have hcancel2 := List.append_cancel_left hcancel
    have : natDecimal (i + 1) = natDecimal (j + 1) := hcancel2
    have := natDecimal_injective this
    omega

/-- The collision loop returns a key that is not in the catalog. -/
theorem freshKey_not_contains (cat : Catalog) (base : String) :
    containsKey cat (freshKey cat base) = false := by
  unfold freshKey
  cases hf : (keyCandidates cat base).find? (fun k => !containsKey cat k) with
  | some k =>
    have hp := List.find?_some hf
    simp only [Bool.not_eq_true'] at hp
    simpa using hp
  | none =>
    exfalso
    have hall := List.find?_eq_none.mp hf
    have hsub : keyCandidates cat base ⊆ cat.map Prod.fst := by
      intro x hx
      have hnx := hall x hx
      simp only [Bool.not_eq_true', Bool.not_eq_false] at hnx
      exact (containsKey_iff_mem_keys cat x).mp hnx
    have hlen := ((keyCandidates_nodup cat base).subperm hsub).length_le
    rw [keyCandidates_length, List.length_map] at hlen
    omega

theorem findRec_append_self (cat : Catalog) (k : String) (r : LocalizationRecord)
    (h : containsKey cat k = false) : findRec (cat ++ [(k, r)]) k = some r := by
  induction cat with
  | nil => simp [findRec]
  | cons p rest ih =>
    simp only [containsKey, List.any_cons, Bool.or_eq_false_iff,
      decide_eq_false_iff_not] at h
    rw [List.cons_append]
    simp only [findRec, h.1, if_false]
    exact ih (by simp [containsKey, h.2])

theorem ctMerge_cons (cat : Catalog) (pair : String × String)
    (rest : List (String × String)) :
    ctMerge cat (pair :: rest) =
      ctMerge (cat ++ [(freshKey cat (String.mk (generate_key_ct pair.1.data)),
        create_string_entry (freshKey cat (String.mk (generate_key_ct pair.1.data)))
          pair.1 pair.2)]) rest := rfl

theorem ctMerge_length (batch : List (String × String)) (cat : Catalog) :
    (ctMerge cat batch).length = cat.length + batch.length := by
  induction batch generalizing cat with
  | nil => simp [ctMerge]
  | cons pair rest ih =>
    rw [ctMerge_cons, ih]
    simp only [List.length_append, List.length_cons, List.length_nil]
    omega

theorem ctMerge_preserves (batch : List (String × String)) (cat : Catalog)
    (k : String) (r : LocalizationRecord) (h : findRec cat k = some r) :
    findRec (ctMerge cat batch) k = some r := by
  induction batch generalizing cat with
  | nil => simpa [ctMerge]
  | cons pair rest ih =>
    rw [ctMerge_cons]
    exact ih _ (findRec_append_of_some cat _ k r h)

theorem ctMerge_present (batch : List (String × String)) (cat : Catalog)
    (pair : String × String) (hmem : pair ∈ batch) :
    ∃ k, findRec (ctMerge cat batch) k =
      some (create_string_entry k pair.1 pair.2) := by
  induction batch generalizing cat with
  | nil => cases hmem
  | cons q rest ih =>
    rcases List.mem_cons.mp hmem with rfl | h2
    · refine ⟨freshKey cat (String.mk (generate_key_ct pair.1.data)), ?_⟩
      rw [ctMerge_cons]
      exact ctMerge_preserves rest _ _ _
        (findRec_append_self cat _ _ (freshKey_not_contains cat _))
    · rw [ctMerge_cons]
      exact ih _ h2

/-- C4, amended: when the lookup yields a non-empty translation, both
locales are `translated`; when it yields nothing — or the empty string,
which `if zh_value:` treats as absent — the source locale is
`translated` and the target locale is `needs_translation` carrying the
source text; hence a target unit in state `needs_translation` always
carries the source-locale value, which is non-empty whenever the source
text is. -/
theorem C4_record_creation_amended (en : String) (lk : List (String × String)) :
    ((∃ z, tableGet lk en = some z ∧ z ≠ "") →
      (create_string_unit en (tableGet lk en)).en.state = TrState.translated ∧
      (create_string_unit en (tableGet lk en)).zhHans.state = TrState.translated) ∧
    (pyTruthy (tableGet lk en) = false →
      (create_string_unit en (tableGet lk en)).en.state = TrState.translated ∧
      (create_string_unit en (tableGet lk en)).zhHans.state =
        TrState.needsTranslation ∧
      (create_string_unit en (tableGet lk en)).zhHans.value = en) ∧
    (∀ zh : Option String,
      (create_string_unit en zh).zhHans.state = TrState.needsTranslation →
      (create_string_unit en zh).zhHans.value =
          (create_string_unit en zh).en.value ∧
        (en ≠ "" → (create_string_unit en zh).zhHans.value ≠ "")) := by
  refine ⟨?_, ?_, ?_⟩
  · rintro ⟨z, hz, hzne⟩
    have ht : pyTruthy (tableGet lk en) = true := by
      rw [hz]
      simpa [pyTruthy] using hzne
    unfold create_string_unit
    rw [if_pos ht]
    exact ⟨rfl, rfl⟩
  · intro hf
    unfold create_string_unit
    rw [if_neg (by simp [hf])]
    exact ⟨rfl, rfl, rfl⟩
  · intro zh hstate
    unfold create_string_unit at hstate ⊢
    by_cases ht : pyTruthy zh = true
    · rw [if_pos ht] at hstate
      simp at hstate
    · rw [if_neg ht] at hstate ⊢
      exact ⟨rfl, fun h => h⟩

/-- C4, counterexample to the claim as stated: a lookup that contains
the source text but maps it to the empty string yields a
`needs_translation` target unit, not `translated`. -/
theorem C4_counterexample :
    (tableGet [("X", "")] "X").isSome = true ∧
    (create_string_unit "X" (tableGet [("X", "")] "X")).zhHans.state ≠
      TrState.translated := by
  decide

theorem C4_record_creation_amended_witness :
    ((create_string_unit "Start" (tableGet [("Start", "开始")] "Start")).zhHans.state =
      TrState.translated) ∧
    ((create_string_unit "Custom" (tableGet [("Start", "开始")] "Custom")).zhHans.value =
      "Custom") ∧
    ((create_string_unit "Custom" (some "")).zhHans.value =
        (create_string_unit "Custom" (some "")).en.value) :=
  ⟨((C4_record_creation_amended "Start" [("Start", "开始")]).1
      ⟨"开始", rfl, by decide⟩).2,
   ((C4_record_creation_amended "Custom" [("Start", "开始")]).2.1 rfl).2.2,
   ((C4_record_creation_amended "Custom" []).2.2 (some "") rfl).1⟩

/-- C10: an explicitly supplied empty-string translation is treated
exactly like an absent one — the target unit is `needs_translation`
with the source text as its value, so an empty translation value never
enters the catalog. -/
theorem C10_empty_translation (en : String) :
    create_string_unit en (some "") = create_string_unit en none ∧
    (create_string_unit en (some "")).zhHans.state = TrState.needsTranslation ∧
    (create_string_unit en (some "")).zhHans.value = en := by
  have h1 : pyTruthy (some "") = false := rfl
  have h2 : pyTruthy (none : Option String) = false := rfl
  unfold create_string_unit
  rw [if_neg (by simp [h1]), if_neg (by simp [h2])]
  exact ⟨rfl, rfl, rfl⟩

/-- C7, amended: the `complete_translations.py` merge resolves key
collisions with numeric suffixes, so a pass over any batch grows the
catalog by exactly the batch length, never touches an existing binding,
and leaves every candidate present under some key; the `build_xcstrings`
merge, however, inserts unconditionally, and a later candidate with the
same generated key overwrites the earlier one (see the
counterexample). -/
theorem C7_collision_amended (cat : Catalog) (batch : List (String × String)) :
    (ctMerge cat batch).length = cat.length + batch.length ∧
    (∀ k r, findRec cat k = some r → findRec (ctMerge cat batch) k = some r) ∧
    (∀ pair ∈ batch, ∃ k, findRec (ctMerge cat batch) k =
      some (create_string_entry k pair.1 pair.2)) :=
  ⟨ctMerge_length batch cat,
   fun k r h => ctMerge_preserves batch cat k r h,
   fun pair hmem => ctMerge_present batch cat pair hmem⟩

/-- C7, counterexample to the claim as stated: `build_xcstrings` does
not resolve collisions — the two extracted strings `"Next"` and
`"Next?"` both generate the key `next`, and the merge ends with a
single entry holding the second text: the first candidate is gone and
its entry was overwritten. -/
theorem C7_counterexample :
    buildMerge [] [] [] ["Next", "Next?"] =
      [("next", recordOfLoc (create_string_unit "Next?" none))] ∧
    (buildMerge [] [] [] ["Next", "Next?"]).length = 1 := by
  decide

theorem C7_collision_amended_witness :
    ((ctMerge [("a", mkTranslatedRecord "A" "B")] [("Start", "开始")]).length = 2) ∧
    (findRec (ctMerge [("a", mkTranslatedRecord "A" "B")] [("Start", "开始")]) "a" =
      some (mkTranslatedRecord "A" "B")) ∧
    (∃ k, findRec (ctMerge [("a", mkTranslatedRecord "A" "B")] [("Start", "开始")]) k =
      some (create_string_entry k "Start" "开始")) :=
  ⟨(C7_collision_amended [("a", mkTranslatedRecord "A" "B")] [("Start", "开始")]).1,
   (C7_collision_amended [("a", mkTranslatedRecord "A" "B")] [("Start", "开始")]).2.1
     "a" _ rfl,
   (C7_collision_amended [("a", mkTranslatedRecord "A" "B")] [("Start", "开始")]).2.2
     _ (List.mem_cons_self _ _)⟩

/-- C8, amended: `add_translations` fails fast (uncaught `KeyError`)
exactly when some record carries a `zh-Hans` localization but no `en`
unit; a record without a `zh-Hans` localization fails the loop's guard
and is silently skipped unchanged, even when its `en` unit is also
missing — so a catalog malformed only in that way is processed without
any error. -/
theorem C8_failfast_amended (lookup : List (String × String)) (cat : Catalog) :
    ((∃ e, add_translations lookup cat = Except.error e) ↔
      ∃ p ∈ cat, p.2.zhHans.isSome = true ∧ p.2.en = none) ∧
    (∀ r : LocalizationRecord, r.zhHans = none →
      updateRecord lookup r = Except.ok r) := by
  refine ⟨add_translations_error_iff lookup cat, ?_⟩
  intro r hr
  simp [updateRecord, hr]

/-- C8, counterexample to the claim as stated: a catalog whose record
lacks the source-locale (`en`) unit — and has no `zh-Hans`
localization either — is processed silently to completion instead of
failing fast. -/
theorem C8_counterexample :
    add_translations []
      [("k", { extractionState := "manual", en := none, zhHans := none })] =
      Except.ok
        [("k", { extractionState := "manual", en := none, zhHans := none })] := rfl

theorem C8_failfast_amended_witness :
    updateRecord [] { extractionState := "manual", en := none, zhHans := none } =
      Except.ok { extractionState := "manual", en := none, zhHans := none } :=
  (C8_failfast_amended [] []).2 _ rfl

/-- C9, amended: the per-entry `Added:` / `Skipped (exists):` reporting
of `extend_xcstrings_fixes.py` matches the true counts — the added
count is exactly the catalog growth, added plus skipped is the batch
length, and the printed total is the final catalog size; the plain
`extend_xcstrings.py` script instead prints the whole batch length as
its added count (no skipped count), over-counting whenever a candidate
is skipped. -/
theorem C9_summary_amended (cat : Catalog) (batch : List Cand) :
    (mergeCount cat batch).1 = mergeNew cat batch ∧
    cat.length + (mergeCount cat batch).2.1 = (mergeNew cat batch).length ∧
    (mergeCount cat batch).2.1 + (mergeCount cat batch).2.2 = batch.length ∧
    extendReportedAdded batch = batch.length := by
  unfold mergeCount
  rcases mergeCount_go batch cat 0 0 with ⟨h1, h2, h3⟩
  exact ⟨h1, by omega, by omega, rfl⟩

/-- C9, counterexample to the claim as stated: with one of its two
batch keys already present, `extend_xcstrings.py` prints `Added 2`
although the catalog grew only from one entry to two (one true
addition, one skip it does not report). -/
theorem C9_counterexample :
    extendReportedAdded [⟨"today", "Today", "今天"⟩, ⟨"x", "X", "Y"⟩] = 2 ∧
    (mergeNew [("today", mkTranslatedRecord "Today" "今天")]
      [⟨"today", "Today", "今天"⟩, ⟨"x", "X", "Y"⟩]).length = 2 ∧
    ([("today", mkTranslatedRecord "Today" "今天")] : Catalog).length = 1 := by
  decide

end Dayflow
